import Mathlib

/-!
Verification of the rule-enforcement core of the `LLm` adventure-game engine
(`src/LLm/main.py`, class `GameEngine`).

The engine's mechanics are embedded shallowly:

* `GameState` mirrors the Python `self.state` dict (`location`, `inventory`,
  `hp`, `flags`, `turns`); the `flags` dict is an insertion-ordered
  association list with `dictGet` / `dictSet` mirroring Python
  `d.get(k, False)` and `d[k] = v`.
* `Rules` mirrors the loaded rule catalog (`INVENTORY_LIMIT`, `LOCKS`,
  `END_CONDITIONS`, `COMMANDS`).
* `Atom` is the tagged change-atom; atoms whose `type` tag is not one of the
  five known strings are `Atom.unknown tag`.
* `enforce_state_change`, `apply_state_change`, `check_end_conditions`,
  `is_valid_command`, `save_game`, `load_game` and the state-mutating part of
  the turn loop (`handle_turn`) are translated line by line from the source;
  printing and file/network I/O are dropped, all state-visible behavior is
  kept.  `is_valid_command` returns `none` where the Python raises
  `IndexError` (`pattern.split()[0]` on a whitespace-only pattern).
* JSON persistence is modelled at the JSON-value level with the `Json`
  inductive: `save_game` stores the encoded state, `load_game` reads it back,
  mirroring `json.dump` / `json.load` on the save-file dict.
-/

/-- A change atom as proposed by the oracle: a dict with a `type` tag and
the tag's payload fields.  An unrecognized tag (including a missing one) is
kept as `unknown` so the validator's `else` branch can be modelled. -/
inductive Atom where
  | add_item (item : String)
  | remove_item (item : String)
  | move_to (location : String)
  | set_flag (flag : String) (value : Bool)
  | hp_delta (delta : Int)
  | unknown (tag : String)
deriving DecidableEq, Repr

/-- The mutable game state: the Python dict `self.state`.  `flags` is an
insertion-ordered association list, as Python dicts are. -/
structure GameState where
  location : String
  inventory : List String
  hp : Int
  flags : List (String × Bool)
  turns : Nat
deriving DecidableEq, Repr

/-- The rule catalog `self.rules` restricted to the fields the core reads:
`INVENTORY_LIMIT`, `LOCKS`, `END_CONDITIONS` (with `MAX_TURNS` already
defaulted per `end.get("MAX_TURNS", 999)`), and `COMMANDS`. -/
structure Rules where
  inventoryLimit : Nat
  locks : List (String × String)
  maxTurns : Nat
  loseAnyFlags : List String
  winAllFlags : List String
  commands : List String
deriving DecidableEq, Repr

/-- Python `d.get(k, False)` on a string-keyed dict of booleans. -/
def dictGet (d : List (String × Bool)) (k : String) : Bool :=
  match d.find? (fun p => p.1 == k) with
  | some p => p.2
  | none => false

/-- Python `d[k] = v`: replace the value if the key is present (keeping its
position), otherwise append the new binding at the end. -/
def dictSet (d : List (String × Bool)) (k : String) (v : Bool) :
    List (String × Bool) :=
  if d.any (fun p => p.1 == k) then
    d.map (fun p => if p.1 == k then (k, v) else p)
  else
    d ++ [(k, v)]

/-- Python `location in locks` / `locks[location]` combined: the lock
requirement of a location, if any. -/
def locksGet (locks : List (String × String)) (location : String) :
    Option String :=
  (locks.find? (fun p => p.1 == location)).map (fun p => p.2)

/-- `GameEngine.enforce_state_change` (main.py lines 82-118): filter a
proposed ordered batch down to the legal subset.  The current state is read
but never written, so every atom is checked against the same pre-turn
state. -/
def enforce_state_change (rules : Rules) (state : GameState) :
    List Atom → List Atom
  | [] => []
  | change :: rest =>
    match change with
    | Atom.add_item _ =>
        if state.inventory.length ≥ rules.inventoryLimit then
          enforce_state_change rules state rest
        else
          change :: enforce_state_change rules state rest
    | Atom.remove_item _ => change :: enforce_state_change rules state rest
    | Atom.move_to location =>
        match locksGet rules.locks location with
        | some requiredFlag =>
            if dictGet state.flags requiredFlag then
              change :: enforce_state_change rules state rest
            else
              enforce_state_change rules state rest
        | none => change :: enforce_state_change rules state rest
    | Atom.set_flag _ _ => change :: enforce_state_change rules state rest
    | Atom.hp_delta _ => change :: enforce_state_change rules state rest
    | Atom.unknown _ => enforce_state_change rules state rest

/-- One iteration of the `for change in state_change` loop of
`GameEngine.apply_state_change` (main.py lines 120-147). -/
def applyAtom (s : GameState) : Atom → GameState
  | Atom.add_item item =>
      if item ∈ s.inventory then s
      else { s with inventory := s.inventory ++ [item] }
  | Atom.remove_item item =>
      if item ∈ s.inventory then { s with inventory := s.inventory.erase item }
      else s
  | Atom.move_to location => { s with location := location }
  | Atom.set_flag flag value => { s with flags := dictSet s.flags flag value }
  | Atom.hp_delta delta =>
      let hp' := max 0 (s.hp + delta)
      let s' := { s with hp := hp' }
      if hp' ≤ 0 then { s' with flags := dictSet s'.flags "hp_zero" true }
      else s'
  | Atom.unknown _ => s

/-- `GameEngine.apply_state_change`: apply the legal atoms in order. -/
def apply_state_change (s : GameState) (changes : List Atom) : GameState :=
  changes.foldl applyAtom s

/-- The validate-then-apply pipeline of one turn (main.py lines 333-336). -/
def run_turn_changes (rules : Rules) (s : GameState) (proposed : List Atom) :
    GameState :=
  apply_state_change s (enforce_state_change rules s proposed)

/-- `GameEngine.check_end_conditions` (main.py lines 61-80): returns
`some "WIN"`, `some "LOSE"` or `none`. -/
def check_end_conditions (rules : Rules) (s : GameState) : Option String :=
  if s.turns ≥ rules.maxTurns then some "LOSE"
  else if rules.loseAnyFlags.any (fun flag => dictGet s.flags flag) then
    some "LOSE"
  else if rules.winAllFlags != [] &&
      rules.winAllFlags.all (fun f => dictGet s.flags f) then
    some "WIN"
  else none

/-- Python `s.lower()` (ASCII model), over the string's characters. -/
def pyLower (s : String) : String :=
  String.mk (s.data.map Char.toLower)

/-- Python `s.strip()`: drop leading and trailing whitespace. -/
def pyStrip (s : String) : String :=
  String.mk
    (((s.data.dropWhile Char.isWhitespace).reverse.dropWhile
        Char.isWhitespace).reverse)

/-- Python `s.startswith(pre)`. -/
def pyStartsWith (s pre : String) : Bool :=
  pre.data.isPrefixOf s.data

/-- Tokenizer for Python `s.split()`: accumulate the current token
(reversed) and cut at whitespace runs. -/
def splitTokensAux : List Char → List Char → List String
  | [], acc => if acc.isEmpty then [] else [String.mk acc.reverse]
  | c :: cs, acc =>
      if c.isWhitespace then
        if acc.isEmpty then splitTokensAux cs []
        else String.mk acc.reverse :: splitTokensAux cs []
      else splitTokensAux cs (c :: acc)

/-- Python `s.split()`: split on runs of whitespace, dropping empty pieces. -/
def pySplitWs (s : String) : List String :=
  splitTokensAux s.data []

/-- Python `s.split()[0]` as an `Option`: `none` where Python raises
`IndexError`. -/
def pyFirstToken (s : String) : Option String :=
  (pySplitWs s).head?

/-- The `for pattern in self.rules["COMMANDS"]` loop of
`GameEngine.is_valid_command` (main.py lines 228-233), given the already
lowered and stripped input. -/
def commandLoop (cmd : String) : List String → Option Bool
  | [] => some false
  | pattern :: rest =>
    match pyFirstToken pattern with
    | none => none
    | some patternBase =>
        if pyStartsWith cmd patternBase then some true
        else commandLoop cmd rest

/-- `GameEngine.is_valid_command` (main.py lines 219-233).  `none` models the
`IndexError` raised by `pattern.split()[0]` on a token-free pattern. -/
def is_valid_command (rules : Rules) (userInput : String) : Option Bool :=
  let cmd := pyStrip (pyLower userInput)
  if cmd ∈ ["help", "inventory", "save", "load", "quit"] then some true
  else commandLoop cmd rules.commands

/-- Modelled from the spec (§4.1): the claimed recognition predicate --
first whitespace-delimited token of the input equals, case-insensitively,
the first token of some pattern, or the input is a special command.  Used
only to compare the spec's words against `is_valid_command`. -/
def isCommandRecognizedSpec (rules : Rules) (userInput : String) : Bool :=
  (pyStrip (pyLower userInput) ∈ ["help", "inventory", "save", "load", "quit"]) ||
  rules.commands.any (fun pattern =>
    match pyFirstToken userInput, pyFirstToken pattern with
    | some a, some b => pyLower a == pyLower b
    | _, _ => false)

/-- One record of `self.history` (main.py lines 342-347). -/
structure TurnRecord where
  turn : Nat
  input : String
  narration : String
  state_change : List Atom
deriving DecidableEq, Repr

/-- The parsed oracle reply used by the turn loop: `narration` and
`state_change` as extracted on main.py lines 329-330. -/
structure LLMResponse where
  narration : String
  state_change : List Atom
deriving DecidableEq, Repr

/-- The engine's mutable session data touched by one turn of the loop. -/
structure EngineState where
  state : GameState
  history : List TurnRecord
deriving DecidableEq, Repr

/-- The state-mutating tail of one `game_loop` iteration (main.py lines
323-347): the oracle is called; `none` models `call_llm` returning `None`,
on which the loop prints and `continue`s, touching nothing.  Otherwise the
proposed atoms are validated, applied, the turn counter incremented and the
turn recorded. -/
def handle_turn (rules : Rules) (es : EngineState) (userInput : String)
    (response : Option LLMResponse) : EngineState :=
  match response with
  | none => es
  | some r =>
      let legal := enforce_state_change rules es.state r.state_change
      let s1 := apply_state_change es.state legal
      let s2 := { s1 with turns := s1.turns + 1 }
      { state := s2
        history := es.history ++
          [{ turn := s2.turns, input := userInput, narration := r.narration,
             state_change := legal }] }

/-- JSON values, for the save-file model (`json.dump` / `json.load` identify
a Python dict with such a tree; Python dicts keep insertion order, hence
objects are ordered field lists). -/
inductive Json where
  | null
  | bool (b : Bool)
  | num (n : Int)
  | str (s : String)
  | arr (elems : List Json)
  | obj (fields : List (String × Json))
deriving BEq, Repr

/-- The JSON image of `self.state` as written by `json.dump`. -/
def encodeGameState (s : GameState) : Json :=
  Json.obj
    [("location", Json.str s.location),
     ("inventory", Json.arr (s.inventory.map Json.str)),
     ("hp", Json.num s.hp),
     ("flags", Json.obj (s.flags.map (fun p => (p.1, Json.bool p.2)))),
     ("turns", Json.num (s.turns : Int))]

/-- Object-field lookup, as indexing a parsed JSON dict does. -/
def jGet (fields : List (String × Json)) (k : String) : Option Json :=
  (fields.find? (fun p => p.1 == k)).map (fun p => p.2)

/-- Read a JSON string. -/
def jStr : Json → Option String
  | Json.str s => some s
  | _ => none

/-- Read a JSON boolean. -/
def jBool : Json → Option Bool
  | Json.bool b => some b
  | _ => none

/-- Read a JSON array of strings back into a string list. -/
def decodeStrings : List Json → Option (List String)
  | [] => some []
  | j :: rest =>
    match jStr j, decodeStrings rest with
    | some s, some ss => some (s :: ss)
    | _, _ => none

/-- Read a JSON object of booleans back into an ordered flag dict. -/
def decodeFlags : List (String × Json) → Option (List (String × Bool))
  | [] => some []
  | p :: rest =>
    match jBool p.2, decodeFlags rest with
    | some b, some bs => some ((p.1, b) :: bs)
    | _, _ => none

/-- The typed view of a parsed save-file `state` dict: the inverse reading
of `encodeGameState`, recovering the fields `load_game` restores verbatim. -/
def decodeGameState (j : Json) : Option GameState :=
  match j with
  | Json.obj fields =>
    match jGet fields "location", jGet fields "inventory", jGet fields "hp",
        jGet fields "flags", jGet fields "turns" with
    | some (Json.str location), some (Json.arr inv), some (Json.num hp),
      some (Json.obj fl), some (Json.num turns) =>
        match decodeStrings inv, decodeFlags fl with
        | some inventory, some flags =>
            some { location := location, inventory := inventory, hp := hp,
                   flags := flags, turns := turns.toNat }
        | _, _ => none
    | _, _, _, _, _ => none
  | _ => none

/-- Python `xs[-10:]`: the last (at most) ten entries. -/
def pyLastTen (xs : List TurnRecord) : List TurnRecord :=
  xs.drop (xs.length - 10)

/-- The save-file contents (main.py lines 32-39). -/
structure SaveData where
  state : Json
  history : List TurnRecord
  timestamp : String

/-- `GameEngine.save_game`: serialize the state, keep the last 10 turns of
history, stamp the time. -/
def save_game (state : GameState) (history : List TurnRecord)
    (timestamp : String) : SaveData :=
  { state := encodeGameState state, history := pyLastTen history,
    timestamp := timestamp }

/-- `GameEngine.load_game` (main.py lines 41-49) on an existing save file:
restore `state` and `history` verbatim.  The state comes back through its
JSON image, so the typed reading is an `Option`. -/
def load_game (sd : SaveData) : Option GameState × List TurnRecord :=
  (decodeGameState sd.state, sd.history)

/-- Number of `add_item` atoms in a batch. -/
def countAdds (l : List Atom) : Nat :=
  (l.filter (fun a => match a with | Atom.add_item _ => true | _ => false)).length

/-! ### Helper lemmas about the validator -/

/-- An `add_item` atom survives validation only if the pre-turn inventory is
strictly below the limit. -/
lemma inventory_lt_of_add_mem (rules : Rules) (s : GameState) :
    ∀ (l : List Atom) (item : String),
      Atom.add_item item ∈ enforce_state_change rules s l →
      s.inventory.length < rules.inventoryLimit := by
  intro l
  induction l with
  | nil => intro item h; simp [enforce_state_change] at h
  | cons a rest ih =>
    intro item h
    cases a with
    | add_item it =>
        by_cases hfull : s.inventory.length ≥ rules.inventoryLimit
        · simp only [enforce_state_change, if_pos hfull] at h
          exact ih item h
        · exact Nat.lt_of_not_ge hfull
    | remove_item it =>
        simp only [enforce_state_change, List.mem_cons] at h
        rcases h with h | h
        · exact absurd h (by simp)
        · exact ih item h
    | move_to loc =>
        simp only [enforce_state_change] at h
        rcases hl : locksGet rules.locks loc with _ | f <;> rw [hl] at h
        · simp only [List.mem_cons] at h
          rcases h with h | h
          · exact absurd h (by simp)
          · exact ih item h
        · by_cases hflag : dictGet s.flags f
          · simp only [if_pos hflag, List.mem_cons] at h
            rcases h with h | h
            · exact absurd h (by simp)
            · exact ih item h
          · simp only [if_neg hflag] at h
            exact ih item h
    | set_flag f v =>
        simp only [enforce_state_change, List.mem_cons] at h
        rcases h with h | h
        · exact absurd h (by simp)
        · exact ih item h
    | hp_delta d =>
        simp only [enforce_state_change, List.mem_cons] at h
        rcases h with h | h
        · exact absurd h (by simp)
        · exact ih item h
    | unknown t =>
        simp only [enforce_state_change] at h
        exact ih item h

/-- Validation never invents atoms: the legal list only drops proposals. -/
lemma countAdds_enforce_le (rules : Rules) (s : GameState) :
    ∀ l : List Atom, countAdds (enforce_state_change rules s l) ≤ countAdds l := by
  intro l
  induction l with
  | nil => simp [enforce_state_change, countAdds]
  | cons a rest ih =>
    cases a with
    | add_item it =>
        by_cases hfull : s.inventory.length ≥ rules.inventoryLimit
        · simp only [enforce_state_change, if_pos hfull]
          exact le_trans ih (by simp [countAdds])
        · simp only [enforce_state_change, if_neg hfull, countAdds,
            List.filter_cons]
          simpa [countAdds] using ih
    | remove_item it =>
        simp only [enforce_state_change, countAdds, List.filter_cons]
        simpa [countAdds] using ih
    | move_to loc =>
        simp only [enforce_state_change]
        rcases hl : locksGet rules.locks loc with _ | f
        · simp only [countAdds, List.filter_cons]
          simpa [countAdds] using ih
        · by_cases hflag : dictGet s.flags f
          · simp only [if_pos hflag, countAdds, List.filter_cons]
            simpa [countAdds] using ih
          · simp only [if_neg hflag]
            exact le_trans ih (by simp [countAdds, List.filter_cons])
    | set_flag f v =>
        simp only [enforce_state_change, countAdds, List.filter_cons]
        simpa [countAdds] using ih
    | hp_delta d =>
        simp only [enforce_state_change, countAdds, List.filter_cons]
        simpa [countAdds] using ih
    | unknown t =>
        simp only [enforce_state_change]
        exact le_trans ih (by simp [countAdds, List.filter_cons])

/-- A batch with at least one counted `add_item` contains one. -/
lemma exists_add_of_countAdds_pos :
    ∀ l : List Atom, 0 < countAdds l → ∃ item, Atom.add_item item ∈ l := by
  intro l
  induction l with
  | nil => simp [countAdds]
  | cons a rest ih =>
    intro hpos
    cases a with
    | add_item it => exact ⟨it, List.mem_cons_self _ _⟩
    | remove_item it =>
        obtain ⟨item, hm⟩ := ih (by simpa [countAdds, List.filter_cons] using hpos)
        exact ⟨item, List.mem_cons_of_mem _ hm⟩
    | move_to loc =>
        obtain ⟨item, hm⟩ := ih (by simpa [countAdds, List.filter_cons] using hpos)
        exact ⟨item, List.mem_cons_of_mem _ hm⟩
    | set_flag f v =>
        obtain ⟨item, hm⟩ := ih (by simpa [countAdds, List.filter_cons] using hpos)
        exact ⟨item, List.mem_cons_of_mem _ hm⟩
    | hp_delta d =>
        obtain ⟨item, hm⟩ := ih (by simpa [countAdds, List.filter_cons] using hpos)
        exact ⟨item, List.mem_cons_of_mem _ hm⟩
    | unknown t =>
        obtain ⟨item, hm⟩ := ih (by simpa [countAdds, List.filter_cons] using hpos)
        exact ⟨item, List.mem_cons_of_mem _ hm⟩

/-- Applying one atom grows the inventory by at most one, and only for an
`add_item` atom. -/
lemma applyAtom_inventory_length (s : GameState) (a : Atom) :
    (applyAtom s a).inventory.length ≤
      s.inventory.length +
        (match a with | Atom.add_item _ => 1 | _ => 0) := by
  cases a with
  | add_item it =>
      by_cases hmem : it ∈ s.inventory
      · simp [applyAtom, hmem]
      · simp [applyAtom, hmem]
  | remove_item it =>
      by_cases hmem : it ∈ s.inventory
      · simp only [applyAtom, if_pos hmem]
        exact le_trans (List.length_erase_le _ _) (by omega)
      · simp [applyAtom, hmem]
  | move_to loc => simp [applyAtom]
  | set_flag f v => simp [applyAtom]
  | hp_delta d =>
      simp only [applyAtom]
      by_cases hz : max 0 (s.hp + d) ≤ 0 <;> simp [hz]
  | unknown t => simp [applyAtom]

/-- The applicator grows the inventory by at most the number of `add_item`
atoms it receives. -/
lemma apply_inventory_length_le :
    ∀ (l : List Atom) (s : GameState),
      (apply_state_change s l).inventory.length ≤
        s.inventory.length + countAdds l := by
  intro l
  induction l with
  | nil => intro s; simp [apply_state_change, countAdds]
  | cons a rest ih =>
    intro s
    have hstep := applyAtom_inventory_length s a
    have htail := ih (applyAtom s a)
    have : apply_state_change s (a :: rest) =
        apply_state_change (applyAtom s a) rest := by
      simp [apply_state_change]
    rw [this]
    cases a <;> simp [countAdds, List.filter_cons] at hstep htail ⊢ <;> omega

/-- The validator's output never contains an unknown-tag atom. -/
lemma unknown_not_mem_enforce (rules : Rules) (s : GameState) :
    ∀ (l : List Atom) (tag : String),
      Atom.unknown tag ∉ enforce_state_change rules s l := by
  intro l
  induction l with
  | nil => intro tag h; simp [enforce_state_change] at h
  | cons a rest ih =>
    intro tag h
    cases a with
    | add_item it =>
        by_cases hfull : s.inventory.length ≥ rules.inventoryLimit
        · simp only [enforce_state_change, if_pos hfull] at h
          exact ih tag h
        · simp only [enforce_state_change, if_neg hfull, List.mem_cons] at h
          rcases h with h | h
          · exact absurd h (by simp)
          · exact ih tag h
    | remove_item it =>
        simp only [enforce_state_change, List.mem_cons] at h
        rcases h with h | h
        · exact absurd h (by simp)
        · exact ih tag h
    | move_to loc =>
        simp only [enforce_state_change] at h
        rcases hl : locksGet rules.locks loc with _ | f <;> rw [hl] at h
        · simp only [List.mem_cons] at h
          rcases h with h | h
          · exact absurd h (by simp)
          · exact ih tag h
        · by_cases hflag : dictGet s.flags f
          · simp only [if_pos hflag, List.mem_cons] at h
            rcases h with h | h
            · exact absurd h (by simp)
            · exact ih tag h
          · simp only [if_neg hflag] at h
            exact ih tag h
    | set_flag f v =>
        simp only [enforce_state_change, List.mem_cons] at h
        rcases h with h | h
        · exact absurd h (by simp)
        · exact ih tag h
    | hp_delta d =>
        simp only [enforce_state_change, List.mem_cons] at h
        rcases h with h | h
        · exact absurd h (by simp)
        · exact ih tag h
    | unknown t =>
        simp only [enforce_state_change] at h
        exact ih tag h

/-- Deleting an unknown-tag atom from a batch does not change the legal
subset the validator produces. -/
lemma enforce_skips_unknown (rules : Rules) (s : GameState) :
    ∀ (pre post : List Atom) (tag : String),
      enforce_state_change rules s (pre ++ Atom.unknown tag :: post) =
        enforce_state_change rules s (pre ++ post) := by
  intro pre post tag
  induction pre with
  | nil => simp [enforce_state_change]
  | cons a pre ih =>
    cases a with
    | move_to loc =>
        simp only [List.cons_append, enforce_state_change]
        rcases locksGet rules.locks loc with _ | f
        · simp [ih]
        · by_cases hflag : dictGet s.flags f <;> simp [hflag, ih]
    | _ => simp [enforce_state_change, ih]

/-- C10: with the inventory at (or above) capacity, every `add_item` atom in
the batch is rejected by the validator -- including atoms naming an item
already present, since capacity is checked before, and regardless of, item
presence. -/
theorem add_item_rejected_when_full (rules : Rules) (s : GameState)
    (hfull : rules.inventoryLimit ≤ s.inventory.length) :
    ∀ (batch : List Atom) (item : String),
      Atom.add_item item ∉ enforce_state_change rules s batch := by
  intro batch item hmem
  exact absurd (inventory_lt_of_add_mem rules s batch item hmem) (by omega)

/-- Rule catalog used by the concrete full-inventory scenario. -/
def exFullRules : Rules :=
  { inventoryLimit := 1, locks := [], maxTurns := 999, loseAnyFlags := [],
    winAllFlags := [], commands := [] }

/-- A state whose single-slot inventory is full (it already holds "torch"). -/
def exFullState : GameState :=
  { location := "cave", inventory := ["torch"], hp := 10, flags := [],
    turns := 0 }

/-- Witness for C10: the inventory is full and already holds "torch", yet the
proposed `add_item "torch"` (a would-be no-op) is still rejected. -/
theorem add_item_rejected_when_full_witness :
    "torch" ∈ exFullState.inventory ∧
      Atom.add_item "torch" ∉
        enforce_state_change exFullRules exFullState [Atom.add_item "torch"] :=
  ⟨by decide,
   add_item_rejected_when_full exFullRules exFullState (by decide)
     [Atom.add_item "torch"] "torch"⟩

/-- C8: an atom with an unrecognized tag is never part of the legal output,
and deleting it from the batch changes nothing -- every other atom is still
validated exactly as before, so an unknown atom never halts processing of
the rest of its batch. -/
theorem unknown_atom_nonfatal (rules : Rules) (s : GameState) :
    (∀ (batch : List Atom) (tag : String),
        Atom.unknown tag ∉ enforce_state_change rules s batch) ∧
    (∀ (pre post : List Atom) (tag : String),
        enforce_state_change rules s (pre ++ Atom.unknown tag :: post) =
          enforce_state_change rules s (pre ++ post)) :=
  ⟨unknown_not_mem_enforce rules s, enforce_skips_unknown rules s⟩

/-- C7: when the oracle call fails (`call_llm` returns `None`), the turn
handler performs zero state mutation: the game state, the turn counter and
the history are exactly as they were. -/
theorem failed_oracle_zero_mutation (rules : Rules) (es : EngineState)
    (userInput : String) :
    handle_turn rules es userInput none = es ∧
    (handle_turn rules es userInput none).state = es.state ∧
    (handle_turn rules es userInput none).state.turns = es.state.turns ∧
    (handle_turn rules es userInput none).history = es.history :=
  ⟨rfl, rfl, rfl, rfl⟩

/-- C3: the end-condition evaluator checks the turn limit first -- at or over
`maxTurns` the result is LOSE no matter what the flags say; below the limit,
any true lose-flag gives LOSE, otherwise a non-empty and fully satisfied
`winAllFlags` gives WIN, and anything else continues the game (`none`). -/
theorem check_end_conditions_priority (rules : Rules) (s : GameState) :
    (s.turns ≥ rules.maxTurns → check_end_conditions rules s = some "LOSE") ∧
    (s.turns < rules.maxTurns →
      ((∃ f ∈ rules.loseAnyFlags, dictGet s.flags f = true) →
          check_end_conditions rules s = some "LOSE") ∧
      ((∀ f ∈ rules.loseAnyFlags, dictGet s.flags f = false) →
        ((rules.winAllFlags ≠ [] ∧
            ∀ f ∈ rules.winAllFlags, dictGet s.flags f = true) →
            check_end_conditions rules s = some "WIN") ∧
        ((rules.winAllFlags = [] ∨
            ∃ f ∈ rules.winAllFlags, dictGet s.flags f = false) →
            check_end_conditions rules s = none))) := by
  refine ⟨fun hmax => ?_, fun hlt => ⟨fun hlose => ?_, fun hnolose => ⟨fun hwin => ?_, fun hnowin => ?_⟩⟩⟩
  · simp [check_end_conditions, hmax]
  · have hnot : ¬ s.turns ≥ rules.maxTurns := by omega
    have hany : rules.loseAnyFlags.any (fun flag => dictGet s.flags flag) = true := by
      rw [List.any_eq_true]
      obtain ⟨f, hf, hv⟩ := hlose
      exact ⟨f, hf, hv⟩
    simp [check_end_conditions, hnot, hany]
  · have hnot : ¬ s.turns ≥ rules.maxTurns := by omega
    have hany : rules.loseAnyFlags.any (fun flag => dictGet s.flags flag) = false := by
      rw [List.any_eq_false]
      intro f hf
      simp [hnolose f hf]
    have hne : (rules.winAllFlags != []) = true := by
      simpa using hwin.1
    have hall : rules.winAllFlags.all (fun f => dictGet s.flags f) = true := by
      rw [List.all_eq_true]
      exact hwin.2
    simp [check_end_conditions, hnot, hany, hne, hall]
  · have hnot : ¬ s.turns ≥ rules.maxTurns := by omega
    have hany : rules.loseAnyFlags.any (fun flag => dictGet s.flags flag) = false := by
      rw [List.any_eq_false]
      intro f hf
      simp [hnolose f hf]
    have hcond : (rules.winAllFlags != [] &&
        rules.winAllFlags.all (fun f => dictGet s.flags f)) = false := by
      rcases hnowin with hnil | ⟨f, hf, hv⟩
      · simp [hnil]
      · rw [Bool.and_eq_false_iff]
        right
        rw [List.all_eq_false]
        exact ⟨f, hf, by simp [hv]⟩
    simp [check_end_conditions, hnot, hany, hcond]

/-- Rule catalog for the end-condition scenario: `maxTurns = 5`, win when
flag "w" holds. -/
def exEndRules : Rules :=
  { inventoryLimit := 5, locks := [], maxTurns := 5, loseAnyFlags := [],
    winAllFlags := ["w"], commands := [] }

/-- A state at the turn limit with every win flag simultaneously true. -/
def exEndState : GameState :=
  { location := "keep", inventory := [], hp := 10, flags := [("w", true)],
    turns := 5 }

/-- Witness for C3: at `turns = maxTurns = 5` with all `winAllFlags`
satisfied, the evaluator still returns LOSE. -/
theorem check_end_conditions_priority_witness :
    check_end_conditions exEndRules exEndState = some "LOSE" :=
  (check_end_conditions_priority exEndRules exEndState).1 (by decide)

/-- C4: for a batch and a `move_to` atom targeting a location with a lock
requirement, the validator rejects the atom exactly when the required flag
is not true in the pre-turn state -- independently of every other atom in
the batch (in particular of earlier `set_flag` atoms), since validation
never updates the state it reads. -/
theorem move_to_locked_rejected (rules : Rules) (s : GameState)
    (location requiredFlag : String)
    (hlock : locksGet rules.locks location = some requiredFlag) :
    (dictGet s.flags requiredFlag = false →
        ∀ batch : List Atom,
          Atom.move_to location ∉ enforce_state_change rules s batch) ∧
    (dictGet s.flags requiredFlag = true →
        ∀ batch : List Atom,
          Atom.move_to location ∈ batch →
          Atom.move_to location ∈ enforce_state_change rules s batch) := by
  constructor
  · intro hflag batch hmem
    induction batch with
    | nil => simp [enforce_state_change] at hmem
    | cons a rest ih =>
      cases a with
      | add_item it =>
          by_cases hfull : s.inventory.length ≥ rules.inventoryLimit
          · simp only [enforce_state_change, if_pos hfull] at hmem
            exact ih hmem
          · simp only [enforce_state_change, if_neg hfull,
              List.mem_cons] at hmem
            rcases hmem with h | h
            · exact absurd h (by simp)
            · exact ih h
      | remove_item it =>
          simp only [enforce_state_change, List.mem_cons] at hmem
          rcases hmem with h | h
          · exact absurd h (by simp)
          · exact ih h
      | move_to loc =>
          by_cases hloc : loc = location
          · subst hloc
            simp only [enforce_state_change, hlock, hflag] at hmem
            simp only [Bool.false_eq_true, if_false] at hmem
            exact ih hmem
          · simp only [enforce_state_change] at hmem
            rcases hl : locksGet rules.locks loc with _ | f <;> rw [hl] at hmem
            · simp only [List.mem_cons] at hmem
              rcases hmem with h | h
              · exact absurd h (by simp; exact fun he => hloc he.symm)
              · exact ih h
            · by_cases hf : dictGet s.flags f
              · simp only [if_pos hf, List.mem_cons] at hmem
                rcases hmem with h | h
                · exact absurd h (by simp; exact fun he => hloc he.symm)
                · exact ih h
              · simp only [if_neg hf] at hmem
                exact ih hmem
      | set_flag f v =>
          simp only [enforce_state_change, List.mem_cons] at hmem
          rcases hmem with h | h
          · exact absurd h (by simp)
          · exact ih h
      | hp_delta d =>
          simp only [enforce_state_change, List.mem_cons] at hmem
          rcases hmem with h | h
          · exact absurd h (by simp)
          · exact ih h
      | unknown t =>
          simp only [enforce_state_change] at hmem
          exact ih hmem
  · intro hflag batch hmem
    induction batch with
    | nil => simp at hmem
    | cons a rest ih =>
      rcases List.mem_cons.mp hmem with heq | htail
      · subst heq
        simp only [enforce_state_change, hlock, hflag, if_true]
        exact List.mem_cons_self _ _
      · have hrec := ih htail
        cases a with
        | add_item it =>
            by_cases hfull : s.inventory.length ≥ rules.inventoryLimit
            · simpa only [enforce_state_change, if_pos hfull] using hrec
            · simp only [enforce_state_change, if_neg hfull]
              exact List.mem_cons_of_mem _ hrec
        | remove_item it =>
            simp only [enforce_state_change]
            exact List.mem_cons_of_mem _ hrec
        | move_to loc =>
            simp only [enforce_state_change]
            rcases locksGet rules.locks loc with _ | f
            · exact List.mem_cons_of_mem _ hrec
            · by_cases hf : dictGet s.flags f
              · simp only [if_pos hf]
                exact List.mem_cons_of_mem _ hrec
              · simpa only [if_neg hf] using hrec
        | set_flag f v =>
            simp only [enforce_state_change]
            exact List.mem_cons_of_mem _ hrec
        | hp_delta d =>
            simp only [enforce_state_change]
            exact List.mem_cons_of_mem _ hrec
        | unknown t =>
            simpa only [enforce_state_change] using hrec

/-- Rule catalog with a locked location: the "vault" requires flag "key". -/
def exLockRules : Rules :=
  { inventoryLimit := 5, locks := [("vault", "key")], maxTurns := 999,
    loseAnyFlags := [], winAllFlags := [], commands := [] }

/-- A state in which the "key" flag is absent. -/
def exLockState : GameState :=
  { location := "hall", inventory := [], hp := 10, flags := [], turns := 0 }

/-- Witness for C4: even though the batch sets the "key" flag before the
move, the `move_to "vault"` atom is rejected, because validation reads only
the pre-turn flags. -/
theorem move_to_locked_rejected_witness :
    Atom.move_to "vault" ∉
      enforce_state_change exLockRules exLockState
        [Atom.set_flag "key" true, Atom.move_to "vault"] :=
  (move_to_locked_rejected exLockRules exLockState "vault" "key"
      (by decide)).1 (by decide)
    [Atom.set_flag "key" true, Atom.move_to "vault"]

/-- Applying an `hp_delta` atom clamps to the floor and leaves the rest of
the numeric state alone. -/
lemma applyAtom_hp_delta (s : GameState) (d : Int) :
    (applyAtom s (Atom.hp_delta d)).hp = max 0 (s.hp + d) := by
  simp only [applyAtom]
  by_cases h : max 0 (s.hp + d) ≤ 0 <;> simp [h]

/-- C2: a turn's `hp_delta` atoms are folded left with an independent clamp
after every single delta -- `hp := max(0, hp + delta)` at each step -- so hp
is never negative at any intermediate state and deltas are never netted. -/
theorem hp_deltas_clamped_stepwise (s : GameState) (ds : List Int)
    (hhp : 0 ≤ s.hp) :
    (apply_state_change s (ds.map Atom.hp_delta)).hp =
        ds.foldl (fun hp d => max 0 (hp + d)) s.hp ∧
    ∀ t ∈ List.scanl applyAtom s (ds.map Atom.hp_delta), 0 ≤ t.hp := by
  induction ds generalizing s with
  | nil =>
      refine ⟨rfl, ?_⟩
      intro t ht
      simp only [List.map_nil, List.scanl_nil, List.mem_singleton] at ht
      exact ht ▸ hhp
  | cons d ds ih =>
      have hstep : (applyAtom s (Atom.hp_delta d)).hp = max 0 (s.hp + d) :=
        applyAtom_hp_delta s d
      have hnn : 0 ≤ (applyAtom s (Atom.hp_delta d)).hp := by
        rw [hstep]; exact le_max_left _ _
      obtain ⟨ihfold, ihmem⟩ := ih (applyAtom s (Atom.hp_delta d)) hnn
      constructor
      · have : apply_state_change s ((d :: ds).map Atom.hp_delta) =
            apply_state_change (applyAtom s (Atom.hp_delta d))
              (ds.map Atom.hp_delta) := by
          simp [apply_state_change]
        rw [this, ihfold, List.foldl_cons, hstep]
      · intro t ht
        simp only [List.map_cons, List.scanl_cons, List.singleton_append,
          List.nil_append, List.mem_cons] at ht
        rcases ht with rfl | ht
        · exact hhp
        · exact ihmem t ht

/-- A starting state with 5 hit points, for the worked hp example. -/
def exHpState : GameState :=
  { location := "pit", inventory := [], hp := 5, flags := [], turns := 0 }

/-- Witness for C2: deltas `-50, +10` on `hp = 5` clamp independently, ending
at 10 (and by the theorem's second half no intermediate hp is negative) --
not the netted result `max(0, 5 - 40) = 0`. -/
theorem hp_deltas_clamped_stepwise_witness :
    (apply_state_change exHpState ([-50, 10].map Atom.hp_delta)).hp =
      [-50, 10].foldl (fun hp d => max 0 (hp + d)) exHpState.hp ∧
    (apply_state_change exHpState ([-50, 10].map Atom.hp_delta)).hp = 10 :=
  ⟨(hp_deltas_clamped_stepwise exHpState [-50, 10] (by decide)).1, by decide⟩

/-- Reading back a list of serialized strings recovers the list. -/
lemma decodeStrings_map (l : List String) :
    decodeStrings (l.map Json.str) = some l := by
  induction l with
  | nil => rfl
  | cons a l ih => simp [decodeStrings, jStr, ih]

/-- Reading back a serialized flag dict recovers the bindings in order. -/
lemma decodeFlags_map (l : List (String × Bool)) :
    decodeFlags (l.map (fun p => (p.1, Json.bool p.2))) = some l := by
  induction l with
  | nil => rfl
  | cons a l ih => simp [decodeFlags, jBool, ih]

/-- C9: saving the game and loading the resulting save file reproduces an
identical `GameState` -- every field, flag bindings (membership and order)
and inventory order included. -/
theorem save_load_roundtrip (state : GameState) (history : List TurnRecord)
    (timestamp : String) :
    (load_game (save_game state history timestamp)).1 = some state := by
  simp [load_game, save_game, decodeGameState, encodeGameState, jGet,
    decodeStrings_map, decodeFlags_map]

/-- Rule catalog with a two-slot inventory, for the capacity scenario. -/
def exCapRules : Rules :=
  { inventoryLimit := 2, locks := [], maxTurns := 999, loseAnyFlags := [],
    winAllFlags := [], commands := [] }

/-- A state with one free inventory slot. -/
def exCapState : GameState :=
  { location := "camp", inventory := ["rope"], hp := 10, flags := [],
    turns := 0 }

/-- Counterexample to C1 as stated: with limit 2 and inventory `["rope"]`
(so the invariant holds before the turn), the batch
`[add_item "map", add_item "lamp"]` passes validation whole -- every atom is
checked against the same pre-turn inventory -- and after application the
inventory holds 3 items, breaking `|inventory| ≤ inventoryLimit`. -/
theorem inventory_limit_counterexample :
    exCapState.inventory.length ≤ exCapRules.inventoryLimit ∧
      enforce_state_change exCapRules exCapState
          [Atom.add_item "map", Atom.add_item "lamp"] =
        [Atom.add_item "map", Atom.add_item "lamp"] ∧
      (run_turn_changes exCapRules exCapState
          [Atom.add_item "map", Atom.add_item "lamp"]).inventory =
        ["rope", "map", "lamp"] ∧
      exCapRules.inventoryLimit <
        (run_turn_changes exCapRules exCapState
            [Atom.add_item "map", Atom.add_item "lamp"]).inventory.length := by
  decide

/-- C1 amended: the invariant `|inventory| ≤ inventoryLimit` is preserved by
validate-then-apply for every batch containing at most one `add_item` atom.
(With two or more `add_item` atoms it can fail, because the validator checks
each one against the same pre-turn inventory; see the counterexample.) -/
theorem inventory_limit_preserved_one_add (rules : Rules) (s : GameState)
    (proposed : List Atom)
    (hinv : s.inventory.length ≤ rules.inventoryLimit)
    (hone : countAdds proposed ≤ 1) :
    (run_turn_changes rules s proposed).inventory.length ≤
      rules.inventoryLimit := by
  have hle := countAdds_enforce_le rules s proposed
  have happ :=
    apply_inventory_length_le (enforce_state_change rules s proposed) s
  rw [run_turn_changes]
  rcases Nat.eq_zero_or_pos
      (countAdds (enforce_state_change rules s proposed)) with hz | hpos
  · omega
  · obtain ⟨item, hm⟩ :=
      exists_add_of_countAdds_pos (enforce_state_change rules s proposed) hpos
    have hlt := inventory_lt_of_add_mem rules s proposed item hm
    omega

/-- Witness for the amended C1: one `add_item` into the remaining free slot
keeps the inventory within its limit. -/
theorem inventory_limit_preserved_one_add_witness :
    (run_turn_changes exCapRules exCapState
        [Atom.add_item "map"]).inventory.length ≤
      exCapRules.inventoryLimit :=
  inventory_limit_preserved_one_add exCapRules exCapState
    [Atom.add_item "map"] (by decide) (by decide)

/-! ### Dictionary lemmas for the flag store -/

/-- Lookup steps over a cons cell. -/
lemma dictGet_cons (p : String × Bool) (d : List (String × Bool)) (k : String) :
    dictGet (p :: d) k = if p.1 == k then p.2 else dictGet d k := by
  by_cases h : p.1 == k <;> simp [dictGet, List.find?_cons, h]

/-- After an in-place update of key `k`, looking up `k` yields the new
value. -/
lemma dictGet_map_update (d : List (String × Bool)) (k : String) (v : Bool)
    (hany : d.any (fun p => p.1 == k) = true) :
    dictGet (d.map (fun p => if p.1 == k then (k, v) else p)) k = v := by
  induction d with
  | nil => simp at hany
  | cons p d ih =>
    by_cases hp : p.1 = k
    · simp [hp, dictGet_cons]
    · have htail : (d.any fun q => q.1 == k) = true := by
        rw [List.any_cons] at hany
        simpa [hp] using hany
      simp [hp, dictGet_cons]
      simpa using ih htail

/-- Updating key `k` in place does not disturb lookups of other keys. -/
lemma dictGet_map_update_ne (d : List (String × Bool)) (k k' : String)
    (v : Bool) (h : ¬ k' = k) :
    dictGet (d.map (fun p => if p.1 == k then (k, v) else p)) k' =
      dictGet d k' := by
  have h1 : ¬ k = k' := fun he => h he.symm
  induction d with
  | nil => simp
  | cons p d ih =>
    have ih' : dictGet
        (List.map (fun p => if p.1 = k then (k, v) else p) d) k' =
          dictGet d k' := by
      simpa using ih
    by_cases hp : p.1 = k
    · simp [hp, dictGet_cons, h1]
      simpa using ih'
    · simp [hp, dictGet_cons]
      rw [ih']

/-- Appending a fresh binding for `k` makes lookups of `k` find it. -/
lemma dictGet_append_single (d : List (String × Bool)) (k : String) (v : Bool)
    (hany : d.any (fun p => p.1 == k) = false) :
    dictGet (d ++ [(k, v)]) k = v := by
  induction d with
  | nil => simp [dictGet_cons, dictGet]
  | cons p d ih =>
    rw [List.any_cons, Bool.or_eq_false_iff] at hany
    simp [dictGet_cons, hany.1, ih hany.2]

/-- Appending a binding for `k` does not disturb lookups of other keys. -/
lemma dictGet_append_single_ne (d : List (String × Bool)) (k k' : String)
    (v : Bool) (h : ¬ k' = k) :
    dictGet (d ++ [(k, v)]) k' = dictGet d k' := by
  have h1 : ¬ k = k' := fun he => h he.symm
  induction d with
  | nil => simp [dictGet, dictGet_cons, h1]
  | cons p d ih => simp [dictGet_cons, ih]

/-- Python `d[k] = v; d.get(k, False) == v`. -/
lemma dictGet_dictSet_self (d : List (String × Bool)) (k : String) (v : Bool) :
    dictGet (dictSet d k v) k = v := by
  by_cases hany : d.any (fun p => p.1 == k) = true
  · rw [dictSet, if_pos hany]
    exact dictGet_map_update d k v hany
  · rw [dictSet, if_neg hany]
    rw [Bool.not_eq_true] at hany
    exact dictGet_append_single d k v hany

/-- Python `d[k] = v` leaves every other key's lookup unchanged. -/
lemma dictGet_dictSet_ne (d : List (String × Bool)) (k k' : String) (v : Bool)
    (h : ¬ k' = k) :
    dictGet (dictSet d k v) k' = dictGet d k' := by
  by_cases hany : d.any (fun p => p.1 == k) = true
  · rw [dictSet, if_pos hany]
    exact dictGet_map_update_ne d k k' v h
  · rw [dictSet, if_neg hany]
    exact dictGet_append_single_ne d k k' v h

/-! ### The `hp_zero` flag -/

/-- No atom other than an explicit `set_flag` on "hp_zero" can clear a set
"hp_zero" flag. -/
lemma applyAtom_hpzero_sticky (s : GameState) (a : Atom)
    (h1 : dictGet s.flags "hp_zero" = true)
    (h2 : ∀ v, a ≠ Atom.set_flag "hp_zero" v) :
    dictGet (applyAtom s a).flags "hp_zero" = true := by
  cases a with
  | add_item it =>
      by_cases hm : it ∈ s.inventory <;> simpa [applyAtom, hm] using h1
  | remove_item it =>
      by_cases hm : it ∈ s.inventory <;> simpa [applyAtom, hm] using h1
  | move_to loc => simpa [applyAtom] using h1
  | set_flag f v =>
      have hf : ¬ "hp_zero" = f := by
        intro he
        exact h2 v (by rw [← he])
      simp only [applyAtom]
      rw [dictGet_dictSet_ne s.flags f "hp_zero" v hf]
      exact h1
  | hp_delta d =>
      simp only [applyAtom]
      by_cases hz : max 0 (s.hp + d) ≤ 0
      · rw [if_pos hz]
        exact dictGet_dictSet_self _ _ _
      · rw [if_neg hz]
        exact h1
  | unknown t => simpa [applyAtom] using h1

/-- A set "hp_zero" flag survives any atom list free of `set_flag "hp_zero"`
atoms. -/
lemma apply_hpzero_sticky (l : List Atom) :
    ∀ s : GameState, dictGet s.flags "hp_zero" = true →
      (∀ v, Atom.set_flag "hp_zero" v ∉ l) →
      dictGet (apply_state_change s l).flags "hp_zero" = true := by
  induction l with
  | nil => intro s h1 _; exact h1
  | cons a l ih =>
    intro s h1 h2
    have hstep := applyAtom_hpzero_sticky s a h1
      (fun v he => h2 v (by rw [← he]; exact List.mem_cons_self _ _))
    have hfold : apply_state_change s (a :: l) =
        apply_state_change (applyAtom s a) l := by
      simp [apply_state_change]
    rw [hfold]
    exact ih (applyAtom s a) hstep (fun v hm => h2 v (List.mem_cons_of_mem a hm))

/-- An `hp_delta` that drives hp to (or past) the floor sets "hp_zero". -/
lemma applyAtom_hpzero_set (s : GameState) (d : Int) (h : s.hp + d ≤ 0) :
    dictGet (applyAtom s (Atom.hp_delta d)).flags "hp_zero" = true := by
  have hz : max 0 (s.hp + d) ≤ 0 := max_le_iff.mpr ⟨le_refl 0, h⟩
  simp only [applyAtom]
  rw [if_pos hz]
  exact dictGet_dictSet_self _ _ _

/-- The only ways a single atom can leave "hp_zero" true: it already was, an
explicit `set_flag "hp_zero" true`, or an `hp_delta` reaching the floor. -/
lemma applyAtom_hpzero_source (s : GameState) (a : Atom)
    (h : dictGet (applyAtom s a).flags "hp_zero" = true) :
    dictGet s.flags "hp_zero" = true ∨ a = Atom.set_flag "hp_zero" true ∨
      ∃ d, a = Atom.hp_delta d ∧ s.hp + d ≤ 0 := by
  cases a with
  | add_item it =>
      left; by_cases hm : it ∈ s.inventory <;> simpa [applyAtom, hm] using h
  | remove_item it =>
      left; by_cases hm : it ∈ s.inventory <;> simpa [applyAtom, hm] using h
  | move_to loc => left; simpa [applyAtom] using h
  | set_flag f v =>
      by_cases hf : "hp_zero" = f
      · subst hf
        simp only [applyAtom] at h
        rw [dictGet_dictSet_self] at h
        right; left; rw [h]
      · left
        simp only [applyAtom] at h
        rwa [dictGet_dictSet_ne s.flags f "hp_zero" v hf] at h
  | hp_delta d =>
      by_cases hz : max 0 (s.hp + d) ≤ 0
      · right; right
        exact ⟨d, rfl, (max_le_iff.mp hz).2⟩
      · left
        simp only [applyAtom] at h
        rwa [if_neg hz] at h
  | unknown t => left; simpa [applyAtom] using h

/-- "hp_zero" can end up true only from being true already, an explicit
`set_flag "hp_zero" true`, or some `hp_delta` atom that reached the floor. -/
lemma apply_hpzero_source (l : List Atom) :
    ∀ s : GameState,
      dictGet (apply_state_change s l).flags "hp_zero" = true →
      dictGet s.flags "hp_zero" = true ∨ Atom.set_flag "hp_zero" true ∈ l ∨
        ∃ l₁ d l₂, l = l₁ ++ Atom.hp_delta d :: l₂ ∧
          (apply_state_change s l₁).hp + d ≤ 0 := by
  induction l with
  | nil => intro s h; left; exact h
  | cons a l ih =>
    intro s h
    have hrec : dictGet
        (apply_state_change (applyAtom s a) l).flags "hp_zero" = true := by
      simpa [apply_state_change] using h
    rcases ih (applyAtom s a) hrec with hh | hm | ⟨l₁, d, l₂, heq, hle⟩
    · rcases applyAtom_hpzero_source s a hh with h0 | h1 | ⟨d, rfl, hle⟩
      · left; exact h0
      · right; left; rw [h1]; exact List.mem_cons_self _ _
      · right; right
        exact ⟨[], d, l, rfl, by simpa [apply_state_change] using hle⟩
    · right; left; exact List.mem_cons_of_mem _ hm
    · right; right
      refine ⟨a :: l₁, d, l₂, by rw [heq, List.cons_append], ?_⟩
      have hfold : apply_state_change s (a :: l₁) =
          apply_state_change (applyAtom s a) l₁ := by
        simp [apply_state_change]
      rw [hfold]
      exact hle

/-- C5 amended: (i) a set "hp_zero" flag is never cleared except by an
explicit `set_flag "hp_zero"` atom; (ii) if some `hp_delta` drives hp to the
floor and no later `set_flag "hp_zero"` occurs, the flag ends true; (iii)
the flag ends true only if it already was, a `set_flag "hp_zero" true` atom
was applied, or some `hp_delta` reached the floor.  (The original claim's
"never set true unless hp reached 0" fails: a `set_flag` atom can set it.) -/
theorem hp_zero_flag_semantics (s : GameState) (l : List Atom) :
    (dictGet s.flags "hp_zero" = true →
        (∀ v, Atom.set_flag "hp_zero" v ∉ l) →
        dictGet (apply_state_change s l).flags "hp_zero" = true) ∧
    (∀ l₁ d l₂, l = l₁ ++ Atom.hp_delta d :: l₂ →
        (apply_state_change s l₁).hp + d ≤ 0 →
        (∀ v, Atom.set_flag "hp_zero" v ∉ l₂) →
        dictGet (apply_state_change s l).flags "hp_zero" = true) ∧
    (dictGet (apply_state_change s l).flags "hp_zero" = true →
        dictGet s.flags "hp_zero" = true ∨
        Atom.set_flag "hp_zero" true ∈ l ∨
        ∃ l₁ d l₂, l = l₁ ++ Atom.hp_delta d :: l₂ ∧
          (apply_state_change s l₁).hp + d ≤ 0) := by
  refine ⟨fun h1 h2 => apply_hpzero_sticky l s h1 h2,
    fun l₁ d l₂ heq hle hnc => ?_, fun h => apply_hpzero_source l s h⟩
  subst heq
  have hfold : apply_state_change s (l₁ ++ Atom.hp_delta d :: l₂) =
      apply_state_change
        (applyAtom (apply_state_change s l₁) (Atom.hp_delta d)) l₂ := by
    simp [apply_state_change, List.foldl_append]
  rw [hfold]
  exact apply_hpzero_sticky l₂ _ (applyAtom_hpzero_set _ d hle) hnc

/-- Rule catalog for the `hp_zero` scenario (no locks, roomy inventory). -/
def exC5Rules : Rules :=
  { inventoryLimit := 9, locks := [], maxTurns := 999, loseAnyFlags := [],
    winAllFlags := [], commands := [] }

/-- A healthy state: 10 hit points, no flags. -/
def exC5State : GameState :=
  { location := "den", inventory := [], hp := 10, flags := [], turns := 0 }

/-- Counterexample to C5 as stated: the oracle proposes only
`set_flag "hp_zero" true`; the validator accepts it, hp stays 10 at every
point of the turn (it never reaches 0), yet the reachable state has
`flags["hp_zero"] = true`. -/
theorem hp_zero_set_without_zero_hp :
    dictGet exC5State.flags "hp_zero" = false ∧
    (∀ t ∈ List.scanl applyAtom exC5State
        (enforce_state_change exC5Rules exC5State
          [Atom.set_flag "hp_zero" true]), t.hp = 10) ∧
    dictGet (run_turn_changes exC5Rules exC5State
        [Atom.set_flag "hp_zero" true]).flags "hp_zero" = true := by
  decide

/-- Witness for the amended C5: a single `hp_delta -50` on 5 hp reaches the
floor and leaves "hp_zero" set. -/
theorem hp_zero_flag_semantics_witness :
    dictGet (apply_state_change exHpState
        [Atom.hp_delta (-50)]).flags "hp_zero" = true :=
  (hp_zero_flag_semantics exHpState [Atom.hp_delta (-50)]).2.1 [] (-50) []
    rfl (by decide) (fun v => List.not_mem_nil _)

/-! ### Command recognition -/

/-- The pattern loop returns `some true` exactly when the input is a string
prefix-extension of some pattern's first token, and never raises when every
pattern has a first token. -/
lemma commandLoop_spec (cmd : String) :
    ∀ cmds : List String,
      (∀ p ∈ cmds, pyFirstToken p ≠ none) →
      ((commandLoop cmd cmds = some true ↔
          ∃ p ∈ cmds, ∃ base, pyFirstToken p = some base ∧
            pyStartsWith cmd base) ∧
        commandLoop cmd cmds ≠ none) := by
  intro cmds
  induction cmds with
  | nil =>
      intro _
      refine ⟨⟨fun h => by simp [commandLoop] at h, ?_⟩, by simp [commandLoop]⟩
      rintro ⟨p, hp, _⟩
      simp at hp
  | cons p rest ih =>
      intro htok
      obtain ⟨base, hbase⟩ : ∃ base, pyFirstToken p = some base := by
        rcases hb : pyFirstToken p with _ | b
        · exact absurd hb (htok p (List.mem_cons_self _ _))
        · exact ⟨b, rfl⟩
      have htokr : ∀ q ∈ rest, pyFirstToken q ≠ none :=
        fun q hq => htok q (List.mem_cons_of_mem _ hq)
      obtain ⟨ihiff, ihne⟩ := ih htokr
      by_cases hsw : pyStartsWith cmd base
      · refine ⟨⟨fun _ => ⟨p, List.mem_cons_self _ _, base, hbase, hsw⟩,
          fun _ => ?_⟩, ?_⟩
        · simp [commandLoop, hbase, hsw]
        · simp [commandLoop, hbase, hsw]
      · have hloop : commandLoop cmd (p :: rest) = commandLoop cmd rest := by
          simp [commandLoop, hbase, hsw]
        rw [hloop]
        refine ⟨?_, ihne⟩
        rw [ihiff]
        constructor
        · rintro ⟨q, hq, b, hb, hswb⟩
          exact ⟨q, List.mem_cons_of_mem _ hq, b, hb, hswb⟩
        · rintro ⟨q, hq, b, hb, hswb⟩
          rcases List.mem_cons.mp hq with rfl | hq'
          · rw [hbase] at hb
            injection hb with hb
            subst hb
            exact absurd hswb hsw
          · exact ⟨q, hq', b, hb, hswb⟩

/-- C6 amended: `is_valid_command` returns true exactly when the lowered and
stripped input is one of the special commands or *starts with* (as a string
prefix, not token equality) the verbatim first whitespace-delimited token of
some pattern; it never raises when every pattern has a first token. -/
theorem is_valid_command_prefix_semantics (rules : Rules) (userInput : String)
    (htok : ∀ p ∈ rules.commands, pyFirstToken p ≠ none) :
    (is_valid_command rules userInput = some true ↔
        pyStrip (pyLower userInput) ∈
          ["help", "inventory", "save", "load", "quit"] ∨
        ∃ p ∈ rules.commands, ∃ base, pyFirstToken p = some base ∧
          pyStartsWith (pyStrip (pyLower userInput)) base) ∧
      is_valid_command rules userInput ≠ none := by
  by_cases hsp : pyStrip (pyLower userInput) ∈
      ["help", "inventory", "save", "load", "quit"]
  · refine ⟨?_, ?_⟩ <;> simp [is_valid_command, hsp]
  · obtain ⟨ihiff, ihne⟩ :=
      commandLoop_spec (pyStrip (pyLower userInput)) rules.commands htok
    have hiv : is_valid_command rules userInput =
        commandLoop (pyStrip (pyLower userInput)) rules.commands := by
      simp [is_valid_command, hsp]
    rw [hiv]
    refine ⟨?_, ihne⟩
    rw [ihiff]
    simp [hsp]

/-- Rule catalog whose only command pattern is "go north". -/
def exCmdRules : Rules :=
  { inventoryLimit := 5, locks := [], maxTurns := 999, loseAnyFlags := [],
    winAllFlags := [], commands := ["go north"] }

/-- Counterexample to C6 as stated: the input "goldfish" is accepted by
`is_valid_command` (because "goldfish" merely *starts with* the pattern's
first token "go"), although its first whitespace-delimited token "goldfish"
equals no pattern's first token and it is no special command -- the
spec-side predicate says it must be refused. -/
theorem command_prefix_counterexample :
    is_valid_command exCmdRules "goldfish" = some true ∧
    pyFirstToken "goldfish" = some "goldfish" ∧
    isCommandRecognizedSpec exCmdRules "goldfish" = false := by
  decide

/-- Witness for the amended C6: with the single well-formed pattern
"go north", the characterization applies to the input "gold". -/
theorem is_valid_command_prefix_semantics_witness :
    (is_valid_command exCmdRules "gold" = some true ↔
        pyStrip (pyLower "gold") ∈
          ["help", "inventory", "save", "load", "quit"] ∨
        ∃ p ∈ exCmdRules.commands, ∃ base, pyFirstToken p = some base ∧
          pyStartsWith (pyStrip (pyLower "gold")) base) ∧
      is_valid_command exCmdRules "gold" ≠ none :=
  is_valid_command_prefix_semantics exCmdRules "gold" (by decide)
